import Mathlib

/-!
Verification of the cookmate recipe service (src/rust-api/src/main.rs).

The service keeps a `HashMap<String, Recipe>` behind a `Mutex` and exposes
three HTTP handlers: `ping`, `list_recipes` and `add_recipe`.  We embed the
store as an association list with unique keys (every `HashMap` state has
pairwise-distinct keys), `HashMap::insert` as `put`, and the handlers as
pure state-passing functions.  Because each handler holds the mutex for its
whole body, a concurrent execution is a sequential interleaving of atomic
handler calls; interleavings are modelled as permutations of the put list.
-/

namespace Cookmate

/-- The `Recipe` struct: `name` plus three optional descriptive fields. -/
structure Recipe where
  name : String
  category : Option String
  method : Option String
  difficulty : Option String
deriving DecidableEq, Repr

/-- The store inside `AppState`: a `HashMap<String, Recipe>` modelled as an
association list whose keys are pairwise distinct. -/
abbrev Store := List (String × Recipe)

/-- The `HashMap::new()` expression in `main`: the store starts empty. -/
def initStore : Store := []

/-- The semantics of `recipes.insert(name, recipe)` on the association-list
model: replace the entry for `name` if present, else append a new entry. -/
def put : Store → String → Recipe → Store
  | [], n, r => [(n, r)]
  | (k, v) :: t, n, r => if k = n then (n, r) :: t else (k, v) :: put t n r

/-- The semantics of `recipes.get(name)` (a read accessor on the map). -/
def lookupRecipe : Store → String → Option Recipe
  | [], _ => none
  | (k, v) :: t, n => if k = n then some v else lookupRecipe t n

/-- The expression `recipes.keys().cloned().collect()` in `list_recipes`. -/
def list_names (s : Store) : List String := s.map Prod.fst

/-- Handler `ping`: returns `HttpResponse::Ok().body("pong")`; the store is
neither read nor written. -/
def ping (s : Store) : Store × Nat × String := (s, 200, "pong")

/-- Handler `list_recipes`: locks the map, collects the keys, and answers
200 with the list of names (serialisation to JSON is the framework's job). -/
def list_recipes (s : Store) : Store × Nat × List String := (s, 200, list_names s)

/-- Handler `add_recipe`: locks the map, runs
`recipes.insert(item.name.clone(), item.into_inner())`, and answers
`HttpResponse::Created().finish()` (201, empty body). -/
def add_recipe (s : Store) (item : Recipe) : Store × Nat × String :=
  (put s item.name item, 201, "")

/-- Folding a list of `add_recipe`-style insertions over a store; used to
describe a whole sequence of POST requests. -/
def applyPuts (s : Store) (L : List (String × Recipe)) : Store :=
  L.foldl (fun st p => put st p.1 p.2) s

/-- Stores reachable from the fresh store by handler writes, as in `main`:
the state starts at `HashMap::new()` and is only ever mutated by
`add_recipe`. -/
inductive Reachable : Store → Prop where
  | init : Reachable initStore
  | step (s : Store) (r : Recipe) : Reachable s → Reachable (add_recipe s r).1

/- Core lemmas about `put`. -/

theorem mem_list_names_put (s : Store) (n x : String) (r : Recipe) :
    x ∈ list_names (put s n r) ↔ x ∈ list_names s ∨ x = n := by
  induction s with
  | nil => simp [put, list_names]
  | cons p t ih =>
    obtain ⟨k, v⟩ := p
    by_cases hk : k = n
    · subst hk
      simp [put, list_names]
      tauto
    · simp only [put, if_neg hk, list_names, List.map_cons, List.mem_cons]
      rw [show (put t n r).map Prod.fst = list_names (put t n r) from rfl, ih]
      simp [list_names]
      tauto

theorem nodup_list_names_put (s : Store) (n : String) (r : Recipe)
    (h : (list_names s).Nodup) : (list_names (put s n r)).Nodup := by
  induction s with
  | nil => simp [put, list_names]
  | cons p t ih =>
    obtain ⟨k, v⟩ := p
    simp only [list_names, List.map_cons, List.nodup_cons] at h
    by_cases hk : k = n
    · subst hk
      simpa [put, list_names] using h
    · simp only [put, if_neg hk, list_names, List.map_cons, List.nodup_cons]
      refine ⟨?_, ih h.2⟩
      intro hmem
      rcases (mem_list_names_put t n k r).1 hmem with hin | heq
      · exact h.1 hin
      · exact hk heq

theorem lookup_put_same (s : Store) (n : String) (r : Recipe) :
    lookupRecipe (put s n r) n = some r := by
  induction s with
  | nil => simp [put, lookupRecipe]
  | cons p t ih =>
    obtain ⟨k, v⟩ := p
    by_cases hk : k = n
    · subst hk; simp [put, lookupRecipe]
    · simp [put, lookupRecipe, hk, ih]

theorem lookup_put_other (s : Store) (m n : String) (r : Recipe) (h : m ≠ n) :
    lookupRecipe (put s n r) m = lookupRecipe s m := by
  induction s with
  | nil => simp [put, lookupRecipe, Ne.symm h]
  | cons p t ih =>
    obtain ⟨k, v⟩ := p
    by_cases hk : k = n
    · subst hk
      have hkm : ¬ k = m := fun h2 => h h2.symm
      simp [put, lookupRecipe, hkm]
    · by_cases hkm : k = m
      · subst hkm; simp [put, lookupRecipe, hk]
      · simp [put, lookupRecipe, hk, hkm, ih]

theorem mem_put (s : Store) (n : String) (r : Recipe) (p : String × Recipe) :
    p ∈ put s n r → p ∈ s ∨ p = (n, r) := by
  induction s with
  | nil =>
    intro h
    simpa [put] using h
  | cons q t ih =>
    obtain ⟨k, v⟩ := q
    intro h
    by_cases hk : k = n
    · subst hk
      simp only [put, if_pos rfl, if_true, List.mem_cons] at h
      rcases h with h | h
      · exact Or.inr h
      · exact Or.inl (List.mem_cons_of_mem _ h)
    · simp only [put, if_neg hk, List.mem_cons] at h
      rcases h with h | h
      · exact Or.inl (h ▸ List.mem_cons_self _ _)
      · rcases ih h with h2 | h2
        · exact Or.inl (List.mem_cons_of_mem _ h2)
        · exact Or.inr h2

theorem mem_applyPuts (L : List (String × Recipe)) (s : Store) (x : String) :
    x ∈ list_names (applyPuts s L) ↔ x ∈ list_names s ∨ x ∈ L.map Prod.fst := by
  induction L generalizing s with
  | nil => simp [applyPuts]
  | cons p t ih =>
    simp only [applyPuts, List.foldl_cons] at ih ⊢
    rw [ih, mem_list_names_put]
    simp
    tauto

theorem nodup_applyPuts (L : List (String × Recipe)) (s : Store)
    (h : (list_names s).Nodup) : (list_names (applyPuts s L)).Nodup := by
  induction L generalizing s with
  | nil => simpa [applyPuts] using h
  | cons p t ih =>
    simp only [applyPuts, List.foldl_cons]
    exact ih _ (nodup_list_names_put _ _ _ h)

/- JSON model for the `POST /recipes` request boundary.  The handler takes
`item: web::Json<Recipe>`; actix-web runs serde deserialisation before the
handler body and answers 400 itself when it fails, so the handler (and the
`insert`) never run on a bad body. -/

/-- A JSON value, as parsed from a request body. -/
inductive Json where
  | null
  | bool (b : Bool)
  | num (n : Int)
  | str (s : String)
  | arr (elems : List Json)
  | obj (fields : List (String × Json))

/-- Field lookup in a JSON object (first occurrence, as serde reads it). -/
def lookupField : List (String × Json) → String → Option Json
  | [], _ => none
  | (k, v) :: t, n => if k = n then some v else lookupField t n

/-- Serde decoding of an `Option<String>` field: absent or `null` gives
`None`, a string gives `Some`, any other JSON type is an error. -/
def decodeOptField : Option Json → Except String (Option String)
  | none => .ok none
  | some .null => .ok none
  | some (.str s) => .ok (some s)
  | some _ => .error "invalid type: expected string or null"

/-- Serde decoding of the derived `Deserialize` for `Recipe`: the body must
be a JSON object with a required string field `name` and three optional
string fields.  The outer `Option Json` is `none` when the body is not
well-formed JSON at all. -/
def decodeRecipe : Option Json → Except String Recipe
  | none => .error "malformed JSON"
  | some (.obj fields) =>
    match lookupField fields "name" with
    | none => .error "missing field name"
    | some (.str n) =>
      match decodeOptField (lookupField fields "category"),
            decodeOptField (lookupField fields "method"),
            decodeOptField (lookupField fields "difficulty") with
      | .ok c, .ok m, .ok d => .ok ⟨n, c, m, d⟩
      | .error e, _, _ => .error e
      | .ok _, .error e, _ => .error e
      | .ok _, .ok _, .error e => .error e
    | some _ => .error "invalid type for field name"
  | some _ => .error "expected a JSON object"

/-- The full `POST /recipes` route: deserialise the body; on failure answer
400 without touching the store, otherwise run the `add_recipe` handler. -/
def postRecipes (s : Store) (body : Option Json) : Store × Nat × String :=
  match decodeRecipe body with
  | .error _ => (s, 400, "")
  | .ok r => add_recipe s r

/-- Sample recipe used by concrete witnesses. -/
def sampleA : Recipe := ⟨"a", some "Breakfast", none, none⟩

/-- Second sample recipe used by concrete witnesses. -/
def sampleB : Recipe := ⟨"b", none, some "Pan", some "Easy"⟩

/- Claim theorems. -/

/-- C1: for every sequence of puts with pairwise-distinct names applied to a
fresh store, a subsequent `list_names` returns exactly that set of names:
every put name appears and nothing else appears. -/
theorem C1_puts_then_list_names (L : List (String × Recipe))
    (_h : (L.map Prod.fst).Nodup) :
    ∀ x, x ∈ list_names (applyPuts initStore L) ↔ x ∈ L.map Prod.fst := by
  intro x
  rw [mem_applyPuts]
  simp [initStore, list_names]

theorem C1_witness :
    ((([("a", sampleA), ("b", sampleB)] : List (String × Recipe)).map Prod.fst).Nodup) ∧
    ("a" ∈ list_names (applyPuts initStore [("a", sampleA), ("b", sampleB)]) ↔
      "a" ∈ ([("a", sampleA), ("b", sampleB)] : List (String × Recipe)).map Prod.fst) :=
  ⟨by decide, C1_puts_then_list_names _ (by decide) "a"⟩

/-- C2: two consecutive puts under the same name leave that name exactly
once in `list_names`, and the record then stored under the name is the
second record in full — overwrite is total, not a field merge. -/
theorem C2_overwrite_total (s : Store) (n : String) (r1 r2 : Recipe)
    (h : (list_names s).Nodup) :
    (list_names (put (put s n r1) n r2)).count n = 1 ∧
    lookupRecipe (put (put s n r1) n r2) n = some r2 := by
  constructor
  · have h1 := nodup_list_names_put (put s n r1) n r2 (nodup_list_names_put s n r1 h)
    have h2 : n ∈ list_names (put (put s n r1) n r2) :=
      (mem_list_names_put _ _ _ _).2 (Or.inr rfl)
    exact List.count_eq_one_of_mem h1 h2
  · exact lookup_put_same _ _ _

theorem C2_witness :
    ((list_names (put (put initStore "a" sampleA) "a" sampleB)).count "a" = 1) ∧
    lookupRecipe (put (put initStore "a" sampleA) "a" sampleB) "a" = some sampleB :=
  C2_overwrite_total initStore "a" sampleA sampleB (by decide)

/-- C3: when the POST body fails to decode into a `Recipe` the route answers
400 and the store is exactly what it was; when it decodes to `r` the route
runs `put r.name r` and answers 201 with an empty body. -/
theorem C3_post_boundary (s : Store) (body : Option Json) :
    (∀ e, decodeRecipe body = .error e → postRecipes s body = (s, 400, "")) ∧
    (∀ r, decodeRecipe body = .ok r →
      postRecipes s body = (put s r.name r, 201, "")) := by
  constructor
  · intro e he
    simp [postRecipes, he]
  · intro r hr
    simp [postRecipes, hr, add_recipe]

theorem C3_witness :
    (postRecipes initStore (some (.obj [("category", .str "Breakfast")])) =
      (initStore, 400, "")) ∧
    (postRecipes initStore (some (.obj [("name", .str "Pancakes"),
        ("category", .str "Breakfast"), ("method", .str "Pan"),
        ("difficulty", .str "Easy")])) =
      (put initStore "Pancakes" ⟨"Pancakes", some "Breakfast", some "Pan", some "Easy"⟩,
        201, "")) :=
  ⟨(C3_post_boundary initStore _).1 "missing field name" rfl,
   (C3_post_boundary initStore _).2
     ⟨"Pancakes", some "Breakfast", some "Pan", some "Easy"⟩ rfl⟩

/-- C4: the store operations are total, for every state and every record,
including empty names and all-absent optional fields: `add_recipe` always
answers 201 with an empty body and `list_recipes` always answers 200;
neither has an error result and no content validation happens. -/
theorem C4_operations_total (s : Store) (r : Recipe) :
    (add_recipe s r).2 = (201, "") ∧ (list_recipes s).2.1 = 200 :=
  ⟨rfl, rfl⟩

/-- C5: with the mutex held for each whole handler body, a concurrent
execution of N puts is a sequential interleaving, i.e. some permutation of
the put list; for N puts with pairwise-distinct names on the empty store,
every interleaving yields exactly the N names and exactly N entries — no
write is lost. -/
theorem C5_concurrent_distinct_puts (L Lp : List (String × Recipe))
    (hp : Lp.Perm L) (h : (L.map Prod.fst).Nodup) :
    (∀ x, x ∈ list_names (applyPuts initStore Lp) ↔ x ∈ L.map Prod.fst) ∧
    (list_names (applyPuts initStore Lp)).length = L.length := by
  have hmem : ∀ x, x ∈ list_names (applyPuts initStore Lp) ↔ x ∈ L.map Prod.fst := by
    intro x
    rw [mem_applyPuts]
    simp only [initStore, list_names, List.map_nil, List.not_mem_nil, false_or]
    exact (hp.map Prod.fst).mem_iff
  refine ⟨hmem, ?_⟩
  have hnodupOut : (list_names (applyPuts initStore Lp)).Nodup :=
    nodup_applyPuts Lp initStore (by simp [initStore, list_names])
  have hperm2 : (list_names (applyPuts initStore Lp)).Perm (L.map Prod.fst) :=
    (List.perm_ext_iff_of_nodup hnodupOut h).2 hmem
  rw [hperm2.length_eq, List.length_map]

theorem C5_witness :
    ("a" ∈ list_names (applyPuts initStore [("b", sampleB), ("a", sampleA)]) ↔
      "a" ∈ ([("a", sampleA), ("b", sampleB)] : List (String × Recipe)).map Prod.fst) ∧
    (list_names (applyPuts initStore [("b", sampleB), ("a", sampleA)])).length =
      ([("a", sampleA), ("b", sampleB)] : List (String × Recipe)).length :=
  ⟨(C5_concurrent_distinct_puts [("a", sampleA), ("b", sampleB)]
      [("b", sampleB), ("a", sampleA)] (by decide) (by decide)).1 "a",
   (C5_concurrent_distinct_puts [("a", sampleA), ("b", sampleB)]
      [("b", sampleB), ("a", sampleA)] (by decide) (by decide)).2⟩

/-- C6: `list_recipes` is read-only and idempotent: it returns the store
unchanged, and two consecutive calls with no intervening put answer with
the same names. -/
theorem C6_list_recipes_readonly (s : Store) :
    (list_recipes s).1 = s ∧
    (list_recipes ((list_recipes s).1)).2.2 = (list_recipes s).2.2 :=
  ⟨rfl, rfl⟩

/-- C7: the freshly initialised store is empty: `list_names` on it is the
empty sequence and no name has a record. -/
theorem C7_initial_store_empty :
    list_names initStore = [] ∧ ∀ n, lookupRecipe initStore n = none :=
  ⟨rfl, fun _ => rfl⟩

/-- C8: `ping` answers 200 with body `pong`, leaves the store unchanged,
and its response does not depend on the store contents. -/
theorem C8_ping_constant (s t : Store) :
    (ping s).1 = s ∧ (ping s).2 = (200, "pong") ∧ (ping s).2 = (ping t).2 :=
  ⟨rfl, rfl, rfl⟩

/-- C9: in every store reachable from the fresh store by handler writes,
every entry's key equals the `name` field of the record stored under it,
because `add_recipe` always inserts the record under its own name. -/
theorem C9_key_matches_record_name (s : Store) (h : Reachable s) :
    ∀ p ∈ s, p.2.name = p.1 := by
  induction h with
  | init =>
    intro p hp
    simp [initStore] at hp
  | step s0 r hr ih =>
    intro p hp
    simp only [add_recipe] at hp
    rcases mem_put s0 r.name r p hp with h1 | h1
    · exact ih p h1
    · subst h1
      rfl

theorem C9_witness :
    (("a", sampleA) : String × Recipe).2.name = "a" :=
  C9_key_matches_record_name _
    (Reachable.step initStore sampleA Reachable.init) ("a", sampleA) (by decide)

/-- C10: `put` under name `n` is frame-preserving for every other name `m`:
the record stored under `m` and the presence of `m` in `list_names` are
exactly as before. -/
theorem C10_put_frame (s : Store) (m n : String) (r : Recipe) (h : m ≠ n) :
    lookupRecipe (put s n r) m = lookupRecipe s m ∧
    (m ∈ list_names (put s n r) ↔ m ∈ list_names s) := by
  refine ⟨lookup_put_other s m n r h, ?_⟩
  rw [mem_list_names_put]
  constructor
  · rintro (h1 | h1)
    · exact h1
    · exact absurd h1 h
  · exact Or.inl

theorem C10_witness :
    (lookupRecipe (put [("a", sampleA)] "b" sampleB) "a" =
      lookupRecipe [("a", sampleA)] "a") ∧
    ("a" ∈ list_names (put [("a", sampleA)] "b" sampleB) ↔
      "a" ∈ list_names [("a", sampleA)]) :=
  C10_put_frame [("a", sampleA)] "a" "b" sampleB (by decide)

end Cookmate
